import Mathlib

/-!
Verification of the text-chunking core of the RAG ingestion service
(`backend/app/ingestion/chunker.py` and `backend/app/ingestion/pipeline.py`).

The token counter is an injected capability (the source wires in a tiktoken
encoding through `count_tokens`; the spec's §4.3 tokenizer adapter): the
embedding is parametric in an arbitrary `count : String → Nat`.  Concrete
instances (a whitespace word counter) are used for executable examples.

Python string helpers (`str.strip`, `str.split`, `" ".join`, the sentence
regex) are modelled over `List Char` so they stay executable and provable.
Configuration values `chunk_size` / `chunk_overlap` are modelled as `Nat`
in the chunking core (the deployed configurations are positive); the
construction-time model `TextChunker.init` keeps them as unvalidated `Int`,
exactly as `__init__` stores whatever it is given.
-/

/-- Python `" ".join(l)`. -/
def joinSpace : List String → String
  | [] => ""
  | [s] => s
  | s :: t :: ts => s ++ " " ++ joinSpace (t :: ts)

/-- Python `str.strip()`: drop leading and trailing whitespace. -/
def pyStrip (s : String) : String :=
  String.mk (((s.data.dropWhile Char.isWhitespace).reverse.dropWhile Char.isWhitespace).reverse)

/-- Worker for `pyWords`: scan the characters, accumulating the current
word (reversed) in `cur`; whitespace flushes the pending word. -/
def pyWordsAux : List Char → List Char → List String
  | [], cur => if cur = [] then [] else [String.mk cur.reverse]
  | c :: cs, cur =>
      if c.isWhitespace then
        (if cur = [] then [] else [String.mk cur.reverse]) ++ pyWordsAux cs []
      else
        pyWordsAux cs (c :: cur)

/-- Python `str.split()` with no argument: split on whitespace runs,
discarding empty pieces. -/
def pyWords (s : String) : List String := pyWordsAux s.data []

/-- A concrete injected token counter used for executable examples:
one token per whitespace-separated word. -/
def wordCount (s : String) : Nat := (pyWords s).length

/-- `True` for the sentence-ending characters of the splitter regex. -/
def isSentEnd (c : Char) : Bool := c = '.' || c = '!' || c = '?'

/-- `[A-Z]` of the splitter regex (ASCII uppercase). -/
def isAsciiUpper (c : Char) : Bool := 'A' ≤ c && c ≤ 'Z'

/-- Worker for the sentence splitter: model of
`re.split(r'(?<=[.!?])\s+(?=[A-Z])', text)`.  A split point is a maximal
whitespace run preceded by `.`/`!`/`?` and followed by an ASCII uppercase
letter; the whitespace run is consumed as the delimiter.  The `fuel`
argument only makes the recursion structural (so that the kernel can
evaluate it); with `fuel ≥ l.length` it never runs out. -/
def sentencesAux : Nat → List Char → List Char → List String
  | _, [], cur => [String.mk cur.reverse]
  | 0, l, cur => [String.mk (cur.reverse ++ l)]
  | fuel + 1, c :: cs, cur =>
      if isSentEnd c then
        let rest := cs.dropWhile Char.isWhitespace
        if (!(cs.takeWhile Char.isWhitespace).isEmpty) &&
            (match rest with | u :: _ => isAsciiUpper u | [] => false) then
          String.mk (c :: cur).reverse :: sentencesAux fuel rest []
        else
          sentencesAux fuel cs (c :: cur)
      else
        sentencesAux fuel cs (c :: cur)

/-- `TextChunker._split_into_sentences`: regex split, then strip each piece
and keep the non-empty ones. -/
def splitIntoSentences (text : String) : List String :=
  ((sentencesAux text.data.length text.data []).map pyStrip).filter (· ≠ "")

/-- `TextChunk` as produced by the chunker (`token_count` is set by
`_create_chunk`; metadata is the per-chunk copy of the base mapping). -/
structure TextChunk where
  text : String
  chunk_index : Nat
  page_number : Nat
  metadata : List (String × String)
  token_count : Nat
deriving Repr, DecidableEq

/-- The chunker: configuration plus the injected token counter
(`self.encoding` / `count_tokens` in the source). -/
structure TextChunker where
  chunk_size : Nat
  chunk_overlap : Nat
  count : String → Nat

/-- `TextChunker.count_tokens`. -/
def TextChunker.count_tokens (C : TextChunker) (text : String) : Nat := C.count text

/-- `TextChunker._create_chunk`: store the stripped text but count tokens on
the unstripped argument; the metadata mapping is a per-chunk copy of
`base_metadata`. -/
def TextChunker.create_chunk (C : TextChunker) (text : String) (chunk_index : Nat)
    (page_number : Nat) (base_metadata : List (String × String)) : TextChunk :=
  { text := pyStrip text
    chunk_index := chunk_index
    page_number := page_number
    metadata := base_metadata
    token_count := C.count_tokens text }

/-- Worker for `TextChunker._get_overlap`, walking the reversed sentence
list: accept sentences while the running total stays within
`chunk_overlap`, stop at the first that does not fit. -/
def TextChunker.overlapAux (C : TextChunker) (overlap_tokens : Nat) :
    List String → List String × Nat
  | [] => ([], overlap_tokens)
  | sentence :: rest =>
      if overlap_tokens + C.count_tokens sentence ≤ C.chunk_overlap then
        let r := C.overlapAux (overlap_tokens + C.count_tokens sentence) rest
        (sentence :: r.1, r.2)
      else
        ([], overlap_tokens)

/-- `TextChunker._get_overlap` (its `total_tokens` parameter is unused in the
source and omitted here): returns the selected overlap suffix in original
order together with its accumulated token total. -/
def TextChunker.get_overlap (C : TextChunker) (sentences : List String) :
    List String × Nat :=
  let r := C.overlapAux 0 sentences.reverse
  (r.1.reverse, r.2)

/-- Worker for `TextChunker._split_long_text`: greedily pack whole words,
counting each word as `count(word + " ")`, flushing the buffer when the
next word would exceed `chunk_size`. -/
def TextChunker.split_long_aux (C : TextChunker) :
    List String → List String → Nat → List String
  | [], current_chunk, _ =>
      if current_chunk = [] then [] else [joinSpace current_chunk]
  | word :: rest, current_chunk, current_tokens =>
      let word_tokens := C.count_tokens (word ++ " ")
      if current_tokens + word_tokens > C.chunk_size then
        (if current_chunk = [] then [] else [joinSpace current_chunk])
          ++ C.split_long_aux rest [word] word_tokens
      else
        C.split_long_aux rest (current_chunk ++ [word]) (current_tokens + word_tokens)

/-- `TextChunker._split_long_text`. -/
def TextChunker.split_long_text (C : TextChunker) (text : String) : List String :=
  C.split_long_aux (pyWords text) [] 0

/-- The `for sub_chunk in sub_chunks` loop of `chunk_text`: one chunk per
sub-chunk at consecutive indices. -/
def mkSubChunks (C : TextChunker) (page_number : Nat)
    (base_metadata : List (String × String)) :
    List String → Nat → List TextChunk
  | [], _ => []
  | t :: ts, i =>
      C.create_chunk t i page_number base_metadata
        :: mkSubChunks C page_number base_metadata ts (i + 1)

/-- The sentence loop of `TextChunker.chunk_text` (including the trailing
flush of the final buffer).  State: remaining sentences, `current_chunk`,
`current_tokens`, `chunk_index`. -/
def TextChunker.chunkLoop (C : TextChunker) (page_number : Nat)
    (base_metadata : List (String × String)) :
    List String → List String → Nat → Nat → List TextChunk
  | [], current_chunk, _, chunk_index =>
      if current_chunk = [] then []
      else [C.create_chunk (joinSpace current_chunk) chunk_index page_number base_metadata]
  | sentence :: rest, current_chunk, current_tokens, chunk_index =>
      let sentence_tokens := C.count_tokens sentence
      if sentence_tokens > C.chunk_size then
        let flushed :=
          if current_chunk = [] then []
          else [C.create_chunk (joinSpace current_chunk) chunk_index page_number base_metadata]
        let idx := if current_chunk = [] then chunk_index else chunk_index + 1
        let subs := C.split_long_text sentence
        flushed ++ mkSubChunks C page_number base_metadata subs idx
          ++ C.chunkLoop page_number base_metadata rest [] 0 (idx + subs.length)
      else if current_tokens + sentence_tokens > C.chunk_size ∧ current_chunk ≠ [] then
        C.create_chunk (joinSpace current_chunk) chunk_index page_number base_metadata
          :: C.chunkLoop page_number base_metadata rest
              ((C.get_overlap current_chunk).1 ++ [sentence])
              ((C.get_overlap current_chunk).2 + sentence_tokens)
              (chunk_index + 1)
      else
        C.chunkLoop page_number base_metadata rest
          (current_chunk ++ [sentence]) (current_tokens + sentence_tokens) chunk_index

/-- `TextChunker.chunk_text`. -/
def TextChunker.chunk_text (C : TextChunker) (text : String) (page_number : Nat)
    (base_metadata : List (String × String)) : List TextChunk :=
  if pyStrip text = "" then []
  else C.chunkLoop page_number base_metadata (splitIntoSentences text) [] 0 0

/-- Sum of the per-sentence token counts of a buffer (what `current_tokens`
tracks in the source loop). -/
def TextChunker.tokSum (C : TextChunker) (l : List String) : Nat :=
  (l.map C.count_tokens).sum

/-- Ghost view of one produced chunk: the sentences seeded from the overlap
of the previous chunk, the sentences (or the single fallback piece) added
afterwards, and whether the chunk came from the long-sentence fallback
path. -/
structure ChunkRec where
  seed : List String
  fresh : List String
  fallback : Bool
deriving Repr, DecidableEq

/-- Ghost twin of `TextChunker.chunkLoop` that records, per produced chunk,
its sentence provenance instead of the assembled text.  `chunkLoop` is
proved to be its image under `mkChunksFromRecs`. -/
def TextChunker.recLoop (C : TextChunker) :
    List String → List String → List String → List ChunkRec
  | [], seed, fresh =>
      if seed ++ fresh = [] then [] else [⟨seed, fresh, false⟩]
  | s :: rest, seed, fresh =>
      if C.count_tokens s > C.chunk_size then
        (if seed ++ fresh = [] then [] else [⟨seed, fresh, false⟩])
          ++ (C.split_long_text s).map (fun p => ⟨[], [p], true⟩)
          ++ C.recLoop rest [] []
      else if C.tokSum (seed ++ fresh) + C.count_tokens s > C.chunk_size ∧ seed ++ fresh ≠ [] then
        ⟨seed, fresh, false⟩ :: C.recLoop rest (C.get_overlap (seed ++ fresh)).1 [s]
      else
        C.recLoop rest seed (fresh ++ [s])

/-- Realize a list of ghost records as `TextChunk`s at consecutive indices. -/
def mkChunksFromRecs (C : TextChunker) (page_number : Nat)
    (base_metadata : List (String × String)) :
    List ChunkRec → Nat → List TextChunk
  | [], _ => []
  | r :: rs, i =>
      C.create_chunk (joinSpace (r.seed ++ r.fresh)) i page_number base_metadata
        :: mkChunksFromRecs C page_number base_metadata rs (i + 1)

/-- Word stream of a list of sentence strings. -/
def sentFlat (l : List String) : List String := (l.map pyWords).flatten

/-- Construction-time state of `TextChunker.__init__`: the two configuration
integers are stored exactly as given (Python ints, possibly zero or
negative), plus the encoding obtained from `tiktoken.get_encoding`. -/
structure TextChunkerInit where
  chunk_size : Int
  chunk_overlap : Int
  count : String → Nat

/-- `TextChunker.__init__`: no validation of `chunk_size`/`chunk_overlap`
whatsoever; the only failure is `tiktoken.get_encoding` raising on an
unknown encoding name (modelled by the lookup table of known encodings). -/
def TextChunker.init (encodings : List (String × (String → Nat)))
    (chunk_size chunk_overlap : Int) (encoding_name : String) :
    Option TextChunkerInit :=
  match encodings.lookup encoding_name with
  | some enc => some ⟨chunk_size, chunk_overlap, enc⟩
  | none => none

/-- An extracted page as consumed by `TextChunker.chunk_pages`. -/
structure ExtractedPage where
  page_number : Nat
  text : String
  metadata : List (String × String)

/-- `TextChunker.chunk_pages`: chunk each page independently with the
page-level base metadata, concatenating the per-page chunk lists. -/
def TextChunker.chunk_pages (C : TextChunker) (pages : List ExtractedPage)
    (document_name category : String) : List TextChunk :=
  (pages.map (fun page =>
    C.chunk_text page.text page.page_number
      [("document_name", document_name), ("category", category),
       ("source", ((page.metadata.lookup "source").getD ""))])).flatten

/-- Metadata record built per stored chunk by `IngestionPipeline._store_chunks`. -/
structure StoredChunkMeta where
  document_id : String
  document_name : String
  category : String
  page_number : Nat
  chunk_index : Nat
  token_count : Nat
  uploaded_by : String
  uploaded_at : String
deriving Repr, DecidableEq

/-- The argument triple handed to `vector_store.add_documents`. -/
structure StoreRequest (α : Type) where
  ids : List String
  documents : List String
  embeddings : List α
  metadatas : List StoredChunkMeta

/-- The `for i, (chunk, embedding) in enumerate(zip(chunks, embeddings))`
loop of `_store_chunks`: note the id uses the enumeration position `i`. -/
def storeChunksAux {α : Type} (document_id filename category : String)
    (uploaded_by : Option String) (now : String) :
    List (TextChunk × α) → Nat → List String × List String × List StoredChunkMeta
  | [], _ => ([], [], [])
  | (chunk, _) :: rest, i =>
      let r := storeChunksAux document_id filename category uploaded_by now rest (i + 1)
      ((document_id ++ "_" ++ toString i) :: r.1,
       chunk.text :: r.2.1,
       { document_id := document_id, document_name := filename, category := category,
         page_number := chunk.page_number, chunk_index := chunk.chunk_index,
         token_count := chunk.token_count,
         uploaded_by := uploaded_by.getD "unknown",
         uploaded_at := now } :: r.2.2)

/-- `IngestionPipeline._store_chunks` (`uploaded_at` is `datetime.now()`,
passed in as `now`; the embeddings list is forwarded unchanged). -/
def IngestionPipeline.store_chunks {α : Type} (document_id filename category : String)
    (chunks : List TextChunk) (embeddings : List α) (uploaded_by : Option String)
    (now : String) : StoreRequest α :=
  let r := storeChunksAux document_id filename category uploaded_by now
    (chunks.zip embeddings) 0
  { ids := r.1, documents := r.2.1, embeddings := embeddings, metadatas := r.2.2 }

/-- Explicit-heap model for metadata aliasing: a heap of mapping cells,
addressed by index. -/
abbrev MetaHeap := List (List (String × String))

/-- A chunk whose `metadata` field is a reference into a `MetaHeap`. -/
structure TextChunkRef where
  text : String
  chunk_index : Nat
  page_number : Nat
  metaRef : Nat
  token_count : Nat
deriving Repr, DecidableEq

/-- Heap-instrumented `_create_chunk`: `base_metadata.copy()` allocates a
fresh cell holding the current value of the base mapping. -/
def TextChunker.create_chunk_alloc (C : TextChunker) (heap : MetaHeap) (text : String)
    (chunk_index page_number : Nat) (baseRef : Nat) : TextChunkRef × MetaHeap :=
  (⟨pyStrip text, chunk_index, page_number, heap.length, C.count_tokens text⟩,
   heap ++ [heap.getD baseRef []])

/-- A run of `_create_chunk` calls sharing one `base_metadata` reference, as
performed by a chunking pass. -/
def TextChunker.create_chunks_alloc (C : TextChunker) (page_number baseRef : Nat) :
    MetaHeap → List String → Nat → List TextChunkRef × MetaHeap
  | heap, [], _ => ([], heap)
  | heap, t :: ts, i =>
      let r := C.create_chunk_alloc heap t i page_number baseRef
      let rest := C.create_chunks_alloc page_number baseRef r.2 ts (i + 1)
      (r.1 :: rest.1, rest.2)

/-- A word as produced by `pyWords`: non-empty and whitespace-free. -/
def properWord (w : String) : Prop :=
  w ≠ "" ∧ ∀ c ∈ w.data, c.isWhitespace = false

/-- Token cost the greedy word packer charges per word: `count(word + " ")`. -/
def TextChunker.wTok (C : TextChunker) (w : String) : Nat :=
  C.count_tokens (w ++ " ")

/-- Sum of the packer's per-word token costs. -/
def TextChunker.wSum (C : TextChunker) (ws : List String) : Nat :=
  (ws.map C.wTok).sum

/-! ### Concrete instances for executable checks -/

/-- A chunker with the word counter, chunk_size 10, chunk_overlap 5. -/
def wcChunker : TextChunker := ⟨10, 5, wordCount⟩

/-- A chunker with the word counter and a 1-token budget. -/
def tinyChunker : TextChunker := ⟨1, 0, wordCount⟩

/-- A chunker with the word counter, chunk_size 2, chunk_overlap 1. -/
def c3Chunker : TextChunker := ⟨2, 1, wordCount⟩

/-! ### Word-splitting lemmas -/

theorem pyWordsAux_word (w rest cur : List Char)
    (hw : ∀ c ∈ w, c.isWhitespace = false) :
    pyWordsAux (w ++ rest) cur = pyWordsAux rest (w.reverse ++ cur) := by
  induction w generalizing cur with
  | nil => simp
  | cons c w ih =>
      simp only [List.cons_append, pyWordsAux, hw c (by simp), Bool.false_eq_true,
        if_false, List.reverse_cons, List.append_assoc, List.singleton_append]
      exact ih (c :: cur) (fun d hd => hw d (by simp [hd]))

theorem pyWordsAux_space (l cur : List Char) :
    pyWordsAux (l ++ [' ']) cur = pyWordsAux l cur := by
  induction l generalizing cur with
  | nil => simp [pyWordsAux]
  | cons c cs ih =>
      by_cases hc : c.isWhitespace
      · simp only [List.cons_append, pyWordsAux, hc, if_true]
        exact congrArg _ (ih [])
      · simp only [List.cons_append, pyWordsAux, hc, Bool.false_eq_true, if_false]
        exact ih (c :: cur)

theorem pyWordsAux_split (l1 l2 cur : List Char) :
    pyWordsAux (l1 ++ ' ' :: l2) cur = pyWordsAux l1 cur ++ pyWordsAux l2 [] := by
  induction l1 generalizing cur with
  | nil =>
      simp only [List.nil_append, pyWordsAux]
      by_cases hcur : cur = [] <;> simp [hcur]
  | cons c cs ih =>
      by_cases hc : c.isWhitespace
      · simp only [List.cons_append, pyWordsAux, hc, if_true, List.append_assoc]
        exact congrArg _ (ih [])
      · simp only [List.cons_append, pyWordsAux, hc, Bool.false_eq_true, if_false]
        exact ih (c :: cur)

theorem pyWordsAux_proper (l cur : List Char)
    (hcur : ∀ c ∈ cur, c.isWhitespace = false) :
    ∀ w ∈ pyWordsAux l cur, properWord w := by
  induction l generalizing cur with
  | nil =>
      intro w hw
      simp only [pyWordsAux] at hw
      by_cases hcur0 : cur = []
      · simp [hcur0] at hw
      · simp only [hcur0, if_false] at hw
        simp only [List.mem_singleton] at hw
        subst hw
        constructor
        · intro h
          have : cur.reverse = ([] : List Char) := congrArg String.data h
          simp at this
          exact hcur0 this
        · intro c hc
          exact hcur c (by simpa using hc)
  | cons c cs ih =>
      intro w hw
      by_cases hc : c.isWhitespace
      · simp only [pyWordsAux, hc, if_true, List.mem_append] at hw
        rcases hw with hw | hw
        · by_cases hcur0 : cur = []
          · simp [hcur0] at hw
          · simp only [hcur0, if_false, List.mem_singleton] at hw
            subst hw
            constructor
            · intro h
              have : cur.reverse = ([] : List Char) := congrArg String.data h
              simp at this
              exact hcur0 this
            · intro d hd
              exact hcur d (by simpa using hd)
        · exact ih [] (by simp) w hw
      · simp only [pyWordsAux, hc, Bool.false_eq_true, if_false] at hw
        refine ih (c :: cur) ?_ w hw
        intro d hd
        rcases List.mem_cons.mp hd with h | h
        · subst h; simpa using hc
        · exact hcur d h

theorem pyWords_proper (s : String) : ∀ w ∈ pyWords s, properWord w :=
  pyWordsAux_proper s.data [] (by simp)

theorem pyWords_of_properWord (w : String) (hw : properWord w) :
    pyWords w = [w] := by
  have h := pyWordsAux_word w.data [] [] hw.2
  simp only [List.append_nil, pyWords] at h ⊢
  rw [h]
  have hne : w.data.reverse ≠ [] := by
    simp only [ne_eq, List.reverse_eq_nil_iff]
    intro hd
    exact hw.1 (by cases w with | mk d => simpa using congrArg String.mk hd)
  simp [pyWordsAux, hne]

theorem data_joinSpace_cons (s t : String) (ts : List String) :
    (joinSpace (s :: t :: ts)).data = s.data ++ ' ' :: (joinSpace (t :: ts)).data := by
  show (s ++ " " ++ joinSpace (t :: ts)).data = _
  rw [String.data_append, String.data_append]
  simp only [show (" " : String).data = [' '] from rfl, List.append_assoc,
    List.singleton_append]

theorem pyWords_joinSpace (ws : List String) (h : ∀ w ∈ ws, properWord w) :
    pyWords (joinSpace ws) = ws := by
  induction ws with
  | nil => rfl
  | cons w ws ih =>
      cases ws with
      | nil => exact pyWords_of_properWord w (h w (by simp))
      | cons t ts =>
          show pyWordsAux (joinSpace (w :: t :: ts)).data [] = _
          rw [data_joinSpace_cons, pyWordsAux_split]
          have hw := pyWords_of_properWord w (h w (by simp))
          simp only [pyWords] at hw
          rw [hw]
          have := ih (fun x hx => h x (by simp [hx]))
          simp only [pyWords] at this
          rw [this]
          rfl

/-- The concrete word counter is additive across a space join. -/
theorem wordCount_append_space_append (a b : String) :
    wordCount (a ++ " " ++ b) = wordCount a + wordCount b := by
  have h : (a ++ " " ++ b).data = a.data ++ ' ' :: b.data := by
    rw [String.data_append, String.data_append]
    simp only [show (" " : String).data = [' '] from rfl, List.append_assoc,
      List.singleton_append]
  simp [wordCount, pyWords, h, pyWordsAux_split]

/-- The concrete word counter ignores a trailing space. -/
theorem wordCount_append_space (w : String) :
    wordCount (w ++ " ") = wordCount w := by
  have h : (w ++ " ").data = w.data ++ [' '] := String.data_append w " "
  simp [wordCount, pyWords, h, pyWordsAux_space]

/-! ### Whitespace-only input -/

theorem pyStrip_eq_empty (s : String) (h : pyStrip s = "") :
    ∀ c ∈ s.data, c.isWhitespace = true := by
  intro c hc
  have hd : ((s.data.dropWhile Char.isWhitespace).reverse.dropWhile
      Char.isWhitespace).reverse = [] := congrArg String.data h
  rw [List.reverse_eq_nil_iff, List.dropWhile_eq_nil_iff] at hd
  have hdrop : ∀ a ∈ s.data.dropWhile Char.isWhitespace, a.isWhitespace = true := by
    intro a ha
    exact hd a (List.mem_reverse.mpr ha)
  rcases List.mem_append.mp
      (by rw [List.takeWhile_append_dropWhile Char.isWhitespace s.data]; exact hc) with hx | hx
  · exact List.mem_takeWhile_imp hx
  · exact hdrop c hx

theorem sentEnd_not_ws (c : Char) (h : c.isWhitespace = true) :
    isSentEnd c = false := by
  by_contra hne
  have hsent : isSentEnd c = true := by
    cases he : isSentEnd c
    · exact absurd he hne
    · rfl
  have : (c = '.' ∨ c = '!') ∨ c = '?' := by
    simpa [isSentEnd, Bool.or_eq_true, decide_eq_true_eq] using hsent
  rcases this with (h1 | h1) | h1 <;> (subst h1; exact absurd h (by decide))

theorem sentencesAux_no_end (l : List Char) (hl : ∀ c ∈ l, isSentEnd c = false) :
    ∀ (fuel : Nat) (cur : List Char), l.length ≤ fuel →
      sentencesAux fuel l cur = [String.mk (cur.reverse ++ l)] := by
  induction l with
  | nil =>
      intro fuel cur _
      cases fuel <;> simp [sentencesAux]
  | cons c cs ih =>
      intro fuel cur hf
      cases fuel with
      | zero => simp at hf
      | succ fuel =>
          have hc : isSentEnd c = false := hl c (by simp)
          simp only [sentencesAux, hc, Bool.false_eq_true, if_false]
          rw [ih (fun d hd => hl d (by simp [hd])) fuel (c :: cur) (by simpa using hf)]
          simp

theorem splitIntoSentences_of_strip_empty (text : String) (h : pyStrip text = "") :
    splitIntoSentences text = [] := by
  have hws := pyStrip_eq_empty text h
  have hns : ∀ c ∈ text.data, isSentEnd c = false :=
    fun c hc => sentEnd_not_ws c (hws c hc)
  unfold splitIntoSentences
  rw [sentencesAux_no_end text.data hns text.data.length [] (le_refl _)]
  have : String.mk ((([] : List Char)).reverse ++ text.data) = text := rfl
  rw [this]
  simp [h]

/-! ### Token sums and `_get_overlap` -/

theorem tokSum_nil (C : TextChunker) : C.tokSum [] = 0 := rfl

theorem tokSum_cons (C : TextChunker) (s : String) (l : List String) :
    C.tokSum (s :: l) = C.count_tokens s + C.tokSum l := by
  simp [TextChunker.tokSum]

theorem tokSum_append (C : TextChunker) (l1 l2 : List String) :
    C.tokSum (l1 ++ l2) = C.tokSum l1 + C.tokSum l2 := by
  simp [TextChunker.tokSum]

theorem tokSum_reverse (C : TextChunker) (l : List String) :
    C.tokSum l.reverse = C.tokSum l := by
  simp [TextChunker.tokSum, List.map_reverse, List.sum_reverse]

theorem overlapAux_sum (C : TextChunker) (t : Nat) (l : List String) :
    (C.overlapAux t l).2 = t + C.tokSum (C.overlapAux t l).1 := by
  induction l generalizing t with
  | nil => simp [TextChunker.overlapAux, tokSum_nil]
  | cons s rest ih =>
      by_cases hb : t + C.count_tokens s ≤ C.chunk_overlap
      · simp only [TextChunker.overlapAux, hb, if_true]
        rw [ih, tokSum_cons]
        omega
      · simp [TextChunker.overlapAux, hb, tokSum_nil]

theorem overlapAux_le (C : TextChunker) (t : Nat) (l : List String)
    (h : t ≤ C.chunk_overlap) : (C.overlapAux t l).2 ≤ C.chunk_overlap := by
  induction l generalizing t with
  | nil => simpa [TextChunker.overlapAux] using h
  | cons s rest ih =>
      by_cases hb : t + C.count_tokens s ≤ C.chunk_overlap
      · simp only [TextChunker.overlapAux, hb, if_true]
        exact ih _ hb
      · simpa [TextChunker.overlapAux, hb] using h

theorem overlapAux_pre (C : TextChunker) (t : Nat) (l : List String) :
    ∃ r, l = (C.overlapAux t l).1 ++ r := by
  induction l generalizing t with
  | nil => exact ⟨[], rfl⟩
  | cons s rest ih =>
      by_cases hb : t + C.count_tokens s ≤ C.chunk_overlap
      · obtain ⟨r, hr⟩ := ih (t + C.count_tokens s)
        refine ⟨r, ?_⟩
        simp only [TextChunker.overlapAux, hb, if_true, List.cons_append]
        exact congrArg (List.cons s) hr
      · exact ⟨s :: rest, by simp [TextChunker.overlapAux, hb]⟩

theorem overlapAux_max (C : TextChunker) (t : Nat) (l : List String) :
    ∀ x rest2, l = (C.overlapAux t l).1 ++ x :: rest2 →
      (C.overlapAux t l).2 + C.count_tokens x > C.chunk_overlap := by
  induction l generalizing t with
  | nil => intro x rest2 h; simp [TextChunker.overlapAux] at h
  | cons s rest ih =>
      intro x rest2 h
      by_cases hb : t + C.count_tokens s ≤ C.chunk_overlap
      · simp only [TextChunker.overlapAux, hb, if_true, List.cons_append,
          List.cons.injEq] at h ⊢
        exact ih (t + C.count_tokens s) x rest2 h.2
      · simp only [TextChunker.overlapAux, hb, if_false, List.nil_append,
          List.cons.injEq] at h ⊢
        obtain ⟨hx, -⟩ := h
        subst hx
        omega

theorem get_overlap_sum (C : TextChunker) (l : List String) :
    (C.get_overlap l).2 = C.tokSum (C.get_overlap l).1 := by
  show (C.overlapAux 0 l.reverse).2 = C.tokSum (C.overlapAux 0 l.reverse).1.reverse
  rw [overlapAux_sum, tokSum_reverse]
  omega

theorem get_overlap_le (C : TextChunker) (l : List String) :
    (C.get_overlap l).2 ≤ C.chunk_overlap :=
  overlapAux_le C 0 l.reverse (Nat.zero_le _)

theorem get_overlap_suffix (C : TextChunker) (l : List String) :
    ∃ pre, l = pre ++ (C.get_overlap l).1 := by
  obtain ⟨r, hr⟩ := overlapAux_pre C 0 l.reverse
  refine ⟨r.reverse, ?_⟩
  show l = r.reverse ++ (C.overlapAux 0 l.reverse).1.reverse
  calc l = l.reverse.reverse := (List.reverse_reverse l).symm
    _ = ((C.overlapAux 0 l.reverse).1 ++ r).reverse := by rw [← hr]
    _ = r.reverse ++ (C.overlapAux 0 l.reverse).1.reverse := by
        rw [List.reverse_append]

theorem get_overlap_max (C : TextChunker) (l : List String) :
    ∀ pre x, l = pre ++ x :: (C.get_overlap l).1 →
      (C.get_overlap l).2 + C.count_tokens x > C.chunk_overlap := by
  intro pre x h
  have hrev := congrArg List.reverse h
  simp only [List.reverse_append, List.reverse_cons, List.append_assoc,
    List.singleton_append] at hrev
  have ho : (C.get_overlap l).1.reverse = (C.overlapAux 0 l.reverse).1 := by
    show (C.overlapAux 0 l.reverse).1.reverse.reverse = _
    rw [List.reverse_reverse]
  rw [ho] at hrev
  exact overlapAux_max C 0 l.reverse x pre.reverse hrev

/-! ### `_split_long_text` lemmas -/

theorem wSum_nil (C : TextChunker) : C.wSum [] = 0 := rfl

theorem wSum_append (C : TextChunker) (l1 l2 : List String) :
    C.wSum (l1 ++ l2) = C.wSum l1 + C.wSum l2 := by
  simp [TextChunker.wSum]

theorem wSum_singleton (C : TextChunker) (w : String) :
    C.wSum [w] = C.wTok w := by
  simp [TextChunker.wSum]

theorem sentFlat_nil : sentFlat [] = [] := rfl

theorem sentFlat_append (l1 l2 : List String) :
    sentFlat (l1 ++ l2) = sentFlat l1 ++ sentFlat l2 := by
  simp [sentFlat]

theorem sentFlat_singleton (s : String) : sentFlat [s] = pyWords s := by
  simp [sentFlat]

theorem sentFlat_flush (buf : List String) (h : ∀ w ∈ buf, properWord w) :
    sentFlat (if buf = [] then [] else [joinSpace buf]) = buf := by
  by_cases hb : buf = []
  · simp [hb, sentFlat]
  · simp only [hb, if_false]
    rw [sentFlat_singleton, pyWords_joinSpace buf h]

theorem split_long_aux_flat (C : TextChunker) (ws : List String) :
    ∀ (buf : List String) (tok : Nat), (∀ w ∈ buf ++ ws, properWord w) →
      sentFlat (C.split_long_aux ws buf tok) = buf ++ ws := by
  induction ws with
  | nil =>
      intro buf tok h
      simp only [TextChunker.split_long_aux, List.append_nil] at h ⊢
      rw [sentFlat_flush buf h]
  | cons w ws ih =>
      intro buf tok h
      have hbw : ∀ x ∈ buf, properWord x := fun x hx => h x (by simp [hx])
      by_cases hb : tok + C.count_tokens (w ++ " ") > C.chunk_size
      · simp only [TextChunker.split_long_aux, hb, if_true]
        rw [sentFlat_append, sentFlat_flush buf hbw,
          ih [w] (C.count_tokens (w ++ " ")) (by
            intro x hx
            rcases List.mem_append.mp hx with hx | hx
            · simp only [List.mem_singleton] at hx
              subst hx
              exact h x (by simp)
            · exact h x (by simp [hx]))]
        simp
      · simp only [TextChunker.split_long_aux, hb, if_false]
        rw [ih (buf ++ [w]) (tok + C.count_tokens (w ++ " ")) (by
          intro x hx
          simp only [List.append_assoc, List.singleton_append] at hx
          exact h x hx)]
        simp

theorem split_long_aux_bound (C : TextChunker) (ws : List String) :
    ∀ (buf : List String) (tok : Nat), tok = C.wSum buf →
      (C.wSum buf ≤ C.chunk_size ∨ ∃ w, buf = [w]) →
      (∀ w ∈ buf ++ ws, properWord w) →
      ∀ piece ∈ C.split_long_aux ws buf tok,
        C.wSum (pyWords piece) ≤ C.chunk_size ∨ (pyWords piece).length = 1 := by
  induction ws with
  | nil =>
      intro buf tok _ hgood h piece hp
      simp only [TextChunker.split_long_aux] at hp
      by_cases hb : buf = []
      · simp [hb] at hp
      · simp only [hb, if_false, List.mem_singleton] at hp
        subst hp
        rw [pyWords_joinSpace buf (fun x hx => h x (by simp [hx]))]
        rcases hgood with hg | ⟨w, hw⟩
        · exact Or.inl hg
        · exact Or.inr (by simp [hw])
  | cons w ws ih =>
      intro buf tok htok hgood h piece hp
      have hbw : ∀ x ∈ buf, properWord x := fun x hx => h x (by simp [hx])
      by_cases hb : tok + C.count_tokens (w ++ " ") > C.chunk_size
      · simp only [TextChunker.split_long_aux, hb, if_true, List.mem_append] at hp
        rcases hp with hp | hp
        · by_cases hbuf : buf = []
          · simp [hbuf] at hp
          · simp only [hbuf, if_false, List.mem_singleton] at hp
            subst hp
            rw [pyWords_joinSpace buf hbw]
            rcases hgood with hg | ⟨v, hv⟩
            · exact Or.inl hg
            · exact Or.inr (by simp [hv])
        · refine ih [w] (C.count_tokens (w ++ " ")) ?_ ?_ ?_ piece hp
          · simp [wSum_singleton, TextChunker.wTok]
          · exact Or.inr ⟨w, rfl⟩
          · intro x hx
            rcases List.mem_append.mp hx with hx | hx
            · simp only [List.mem_singleton] at hx
              subst hx
              exact h x (by simp)
            · exact h x (by simp [hx])
      · simp only [TextChunker.split_long_aux, hb, if_false] at hp
        refine ih (buf ++ [w]) (tok + C.count_tokens (w ++ " ")) ?_ ?_ ?_ piece hp
        · rw [wSum_append, wSum_singleton, htok]
          rfl
        · left
          rw [wSum_append, wSum_singleton]
          have : tok + C.wTok w ≤ C.chunk_size := by
            simpa [TextChunker.wTok] using hb
          omega
        · intro x hx
          simp only [List.append_assoc, List.singleton_append] at hx
          exact h x hx

theorem split_long_text_flat (C : TextChunker) (s : String) :
    sentFlat (C.split_long_text s) = pyWords s := by
  have := split_long_aux_flat C (pyWords s) [] 0 (by
    intro w hw
    exact pyWords_proper s w (by simpa using hw))
  simpa [TextChunker.split_long_text] using this

theorem split_long_text_bound (C : TextChunker) (s : String) :
    ∀ piece ∈ C.split_long_text s,
      C.wSum (pyWords piece) ≤ C.chunk_size ∨ (pyWords piece).length = 1 := by
  refine split_long_aux_bound C (pyWords s) [] 0 rfl (Or.inl ?_) ?_
  · simp [wSum_nil]
  · intro w hw
    exact pyWords_proper s w (by simpa using hw)

/-! ### Ghost-loop correspondence -/

theorem sentFlat_cons (s : String) (l : List String) :
    sentFlat (s :: l) = pyWords s ++ sentFlat l := by
  simp [sentFlat]

theorem mkChunksFromRecs_append (C : TextChunker) (p : Nat)
    (m : List (String × String)) (l1 l2 : List ChunkRec) (i : Nat) :
    mkChunksFromRecs C p m (l1 ++ l2) i
      = mkChunksFromRecs C p m l1 i ++ mkChunksFromRecs C p m l2 (i + l1.length) := by
  induction l1 generalizing i with
  | nil => simp [mkChunksFromRecs]
  | cons r rs ih =>
      simp only [List.cons_append, mkChunksFromRecs, List.length_cons]
      have h : i + 1 + rs.length = i + (rs.length + 1) := by omega
      rw [← h]
      exact congrArg _ (ih (i + 1))

theorem mkChunksFromRecs_length (C : TextChunker) (p : Nat)
    (m : List (String × String)) (l : List ChunkRec) (i : Nat) :
    (mkChunksFromRecs C p m l i).length = l.length := by
  induction l generalizing i with
  | nil => rfl
  | cons r rs ih => simp [mkChunksFromRecs, ih]

theorem mkChunksFromRecs_map_index (C : TextChunker) (p : Nat)
    (m : List (String × String)) (l : List ChunkRec) (i : Nat) :
    (mkChunksFromRecs C p m l i).map (fun c => c.chunk_index)
      = List.range' i l.length := by
  induction l generalizing i with
  | nil => rfl
  | cons r rs ih =>
      simp only [mkChunksFromRecs, List.map_cons, List.length_cons, List.range'_succ]
      exact congrArg (List.cons i) (ih (i + 1))

theorem mkChunksFromRecs_map_text (C : TextChunker) (p : Nat)
    (m : List (String × String)) (l : List ChunkRec) (i : Nat) :
    (mkChunksFromRecs C p m l i).map (fun c => c.text)
      = l.map (fun r => pyStrip (joinSpace (r.seed ++ r.fresh))) := by
  induction l generalizing i with
  | nil => rfl
  | cons r rs ih =>
      simp only [mkChunksFromRecs, List.map_cons, TextChunker.create_chunk]
      exact congrArg _ (ih (i + 1))

theorem mkChunksFromRecs_zip_token (C : TextChunker) (p : Nat)
    (m : List (String × String)) (l : List ChunkRec) (i : Nat) :
    ∀ pr ∈ l.zip (mkChunksFromRecs C p m l i),
      pr.2.token_count = C.count_tokens (joinSpace (pr.1.seed ++ pr.1.fresh)) := by
  induction l generalizing i with
  | nil => intro pr h; simp at h
  | cons r rs ih =>
      intro pr h
      simp only [mkChunksFromRecs, List.zip_cons_cons, List.mem_cons] at h
      rcases h with h | h
      · subst h; rfl
      · exact ih (i + 1) pr h

theorem mkChunksFromRecs_fallback (C : TextChunker) (p : Nat)
    (m : List (String × String)) (pieces : List String) (i : Nat) :
    mkChunksFromRecs C p m (pieces.map (fun pc => (⟨[], [pc], true⟩ : ChunkRec))) i
      = mkSubChunks C p m pieces i := by
  induction pieces generalizing i with
  | nil => rfl
  | cons pc pcs ih =>
      simp only [List.map_cons, mkChunksFromRecs, mkSubChunks, List.nil_append]
      exact congrArg _ (ih (i + 1))

theorem chunkLoop_eq_recs (C : TextChunker) (p : Nat) (m : List (String × String))
    (ss : List String) :
    ∀ (seed fresh : List String) (idx : Nat),
      C.chunkLoop p m ss (seed ++ fresh) (C.tokSum (seed ++ fresh)) idx
        = mkChunksFromRecs C p m (C.recLoop ss seed fresh) idx := by
  induction ss with
  | nil =>
      intro seed fresh idx
      by_cases hb : seed ++ fresh = []
      · simp [TextChunker.chunkLoop, TextChunker.recLoop, hb, mkChunksFromRecs]
      · simp [TextChunker.chunkLoop, TextChunker.recLoop, hb, mkChunksFromRecs]
  | cons s rest ih =>
      intro seed fresh idx
      by_cases h1 : C.count_tokens s > C.chunk_size
      · simp only [TextChunker.chunkLoop, TextChunker.recLoop, h1, if_true,
          mkChunksFromRecs_append, mkChunksFromRecs_fallback, List.length_map]
        by_cases hb : seed ++ fresh = []
        · simp only [hb, if_true, List.length_nil, List.nil_append, Nat.add_zero,
            mkChunksFromRecs, List.length_map]
          have h0 : C.chunkLoop p m rest [] 0 (idx + (C.split_long_text s).length)
              = mkChunksFromRecs C p m (C.recLoop rest [] [])
                  (idx + (C.split_long_text s).length) := by
            have := ih [] [] (idx + (C.split_long_text s).length)
            simpa [tokSum_nil] using this
          rw [h0]
        · simp only [hb, if_false, mkChunksFromRecs, List.length_cons, List.length_nil,
            List.length_map, Nat.zero_add, List.singleton_append, List.cons_append,
            List.nil_append]
          have h0 : C.chunkLoop p m rest [] 0 (idx + 1 + (C.split_long_text s).length)
              = mkChunksFromRecs C p m (C.recLoop rest [] [])
                  (idx + 1 + (C.split_long_text s).length) := by
            have := ih [] [] (idx + 1 + (C.split_long_text s).length)
            simpa [tokSum_nil] using this
          rw [h0]
          have harith : idx + 1 + (C.split_long_text s).length
              = idx + ((C.split_long_text s).length + 1) := by omega
          rw [harith]
      · simp only [TextChunker.chunkLoop, TextChunker.recLoop, h1, if_false]
        by_cases h2 : C.tokSum (seed ++ fresh) + C.count_tokens s > C.chunk_size
            ∧ seed ++ fresh ≠ []
        · rw [if_pos h2, if_pos h2]
          simp only [mkChunksFromRecs]
          have hnext : (C.get_overlap (seed ++ fresh)).2 + C.count_tokens s
              = C.tokSum ((C.get_overlap (seed ++ fresh)).1 ++ [s]) := by
            rw [tokSum_append, get_overlap_sum, tokSum_cons, tokSum_nil]
            omega
          rw [hnext]
          exact congrArg _ (ih (C.get_overlap (seed ++ fresh)).1 [s] (idx + 1))
        · rw [if_neg h2, if_neg h2]
          have hl : (seed ++ fresh) ++ [s] = seed ++ (fresh ++ [s]) := by
            rw [List.append_assoc]
          have ht : C.tokSum (seed ++ fresh) + C.count_tokens s
              = C.tokSum (seed ++ (fresh ++ [s])) := by
            simp only [tokSum_append, tokSum_cons, tokSum_nil]
            omega
          rw [hl, ht]
          exact ih seed (fresh ++ [s]) idx

theorem chunk_text_eq_recs (C : TextChunker) (text : String) (p : Nat)
    (m : List (String × String)) :
    C.chunk_text text p m
      = mkChunksFromRecs C p m (C.recLoop (splitIntoSentences text) [] []) 0 := by
  unfold TextChunker.chunk_text
  by_cases h : pyStrip text = ""
  · rw [if_pos h, splitIntoSentences_of_strip_empty text h]
    simp [TextChunker.recLoop, mkChunksFromRecs]
  · rw [if_neg h]
    have := chunkLoop_eq_recs C p m (splitIntoSentences text) [] [] 0
    simpa [tokSum_nil] using this

/-! ### Loop invariants on the ghost view -/

theorem recLoop_bound (C : TextChunker) (ss : List String) :
    ∀ seed fresh, C.tokSum (seed ++ fresh) ≤ C.chunk_size + C.chunk_overlap →
      ∀ r ∈ C.recLoop ss seed fresh, r.fallback = false →
        r.seed ++ r.fresh ≠ [] ∧
          C.tokSum (r.seed ++ r.fresh) ≤ C.chunk_size + C.chunk_overlap := by
  induction ss with
  | nil =>
      intro seed fresh hkb r hr _
      by_cases hb : seed ++ fresh = []
      · simp [TextChunker.recLoop, hb] at hr
      · simp only [TextChunker.recLoop, hb, if_false, List.mem_singleton] at hr
        subst hr
        exact ⟨hb, hkb⟩
  | cons s rest ih =>
      intro seed fresh hkb r hr hrf
      by_cases h1 : C.count_tokens s > C.chunk_size
      · simp only [TextChunker.recLoop, h1, if_true, List.mem_append] at hr
        rcases hr with (hr | hr) | hr
        · by_cases hb : seed ++ fresh = []
          · simp [hb] at hr
          · simp only [hb, if_false, List.mem_singleton] at hr
            subst hr
            exact ⟨hb, hkb⟩
        · obtain ⟨pc, -, hpc⟩ := List.mem_map.mp hr
          rw [← hpc] at hrf
          simp at hrf
        · exact ih [] [] (by simp [tokSum_nil]) r hr hrf
      · by_cases h2 : C.tokSum (seed ++ fresh) + C.count_tokens s > C.chunk_size
            ∧ seed ++ fresh ≠ []
        · simp only [TextChunker.recLoop, h1, if_false, if_pos h2,
            List.mem_cons] at hr
          rcases hr with hr | hr
          · subst hr
            exact ⟨h2.2, hkb⟩
          · refine ih (C.get_overlap (seed ++ fresh)).1 [s] ?_ r hr hrf
            have h3 := get_overlap_le C (seed ++ fresh)
            have h4 := get_overlap_sum C (seed ++ fresh)
            simp only [tokSum_append, tokSum_cons, tokSum_nil]
            omega
        · simp only [TextChunker.recLoop, h1, if_false, if_neg h2] at hr
          refine ih seed (fresh ++ [s]) ?_ r hr hrf
          simp only [tokSum_append, tokSum_cons, tokSum_nil] at hkb ⊢
          by_cases hb : seed ++ fresh = []
          · have hseed : seed = [] := by
              rcases List.append_eq_nil.mp hb with ⟨h5, h6⟩
              exact h5
            have hfresh : fresh = [] := by
              rcases List.append_eq_nil.mp hb with ⟨h5, h6⟩
              exact h6
            subst hseed
            subst hfresh
            simp only [tokSum_nil]
            omega
          · have h5 : ¬ (C.tokSum (seed ++ fresh) + C.count_tokens s > C.chunk_size) :=
              fun hgt => h2 ⟨hgt, hb⟩
            simp only [tokSum_append] at h5
            omega

theorem recLoop_flat (C : TextChunker) (ss : List String) :
    ∀ seed fresh,
      sentFlat (((C.recLoop ss seed fresh).map (fun r => r.fresh)).flatten)
        = sentFlat fresh ++ sentFlat ss := by
  induction ss with
  | nil =>
      intro seed fresh
      by_cases hb : seed ++ fresh = []
      · have hfresh : fresh = [] := (List.append_eq_nil.mp hb).2
        subst hfresh
        simp [TextChunker.recLoop, hb, sentFlat_nil]
      · simp [TextChunker.recLoop, hb, sentFlat_nil]
  | cons s rest ih =>
      intro seed fresh
      rw [sentFlat_cons]
      by_cases h1 : C.count_tokens s > C.chunk_size
      · simp only [TextChunker.recLoop, h1, if_true, List.map_append,
          List.flatten_append, sentFlat_append]
        have hmap : sentFlat (((C.split_long_text s).map
            (fun p => (⟨[], [p], true⟩ : ChunkRec))).map (fun r => r.fresh)).flatten
            = pyWords s := by
          have hcomp : ((C.split_long_text s).map
              (fun p => (⟨[], [p], true⟩ : ChunkRec))).map (fun r => r.fresh)
              = (C.split_long_text s).map (fun p => [p]) := by
            rw [List.map_map]
            rfl
          rw [hcomp]
          have hfl : ((C.split_long_text s).map (fun p => [p])).flatten
              = C.split_long_text s := by
            induction C.split_long_text s with
            | nil => rfl
            | cons x xs ihx => simp [ihx]
          rw [hfl, split_long_text_flat]
        by_cases hb : seed ++ fresh = []
        · have hfresh : fresh = [] := (List.append_eq_nil.mp hb).2
          subst hfresh
          simp only [hb, if_true, List.map_nil, List.flatten_nil, sentFlat_nil,
            List.nil_append]
          rw [ih [] [], hmap]
          simp [sentFlat_nil]
        · simp only [hb, if_false, List.map_cons, List.map_nil, List.flatten_cons,
            List.flatten_nil, List.append_nil, sentFlat_append]
          rw [ih [] [], hmap]
          simp [sentFlat_nil]
      · by_cases h2 : C.tokSum (seed ++ fresh) + C.count_tokens s > C.chunk_size
            ∧ seed ++ fresh ≠ []
        · simp only [TextChunker.recLoop, h1, if_false, if_pos h2, List.map_cons,
            List.flatten_cons, sentFlat_append]
          rw [ih (C.get_overlap (seed ++ fresh)).1 [s], sentFlat_singleton]
        · simp only [TextChunker.recLoop, h1, if_false, if_neg h2]
          rw [ih seed (fresh ++ [s]), sentFlat_append, sentFlat_singleton]
          simp [List.append_assoc]

/-! ### Join subadditivity for the injected counter -/

theorem count_joinSpace_le (C : TextChunker)
    (Hsub : ∀ a b, C.count_tokens (a ++ " " ++ b)
      ≤ C.count_tokens a + C.count_tokens b) :
    ∀ l, l ≠ [] → C.count_tokens (joinSpace l) ≤ C.tokSum l := by
  intro l
  induction l with
  | nil => intro h; exact absurd rfl h
  | cons s ts ih =>
      intro _
      cases ts with
      | nil =>
          simp [joinSpace, tokSum_cons, tokSum_nil]
      | cons t ts2 =>
          calc C.count_tokens (joinSpace (s :: t :: ts2))
              = C.count_tokens (s ++ " " ++ joinSpace (t :: ts2)) := rfl
            _ ≤ C.count_tokens s + C.count_tokens (joinSpace (t :: ts2)) := Hsub _ _
            _ ≤ C.count_tokens s + C.tokSum (t :: ts2) := by
                have h2 := ih (by simp)
                omega
            _ = C.tokSum (s :: t :: ts2) := (tokSum_cons C s (t :: ts2)).symm

theorem tokSum_le_wSum (C : TextChunker)
    (Hsp : ∀ w, C.count_tokens w ≤ C.count_tokens (w ++ " ")) (l : List String) :
    C.tokSum l ≤ C.wSum l := by
  exact List.sum_le_sum (fun w _ => Hsp w)

/-! ### Heap-model lemmas for metadata copying -/

theorem create_chunks_alloc_spec (C : TextChunker) (p baseRef : Nat)
    (ts : List String) :
    ∀ (heap : MetaHeap) (i : Nat), baseRef < heap.length →
      ((C.create_chunks_alloc p baseRef heap ts i).1.map (fun c => c.metaRef)
          = List.range' heap.length ts.length)
      ∧ (C.create_chunks_alloc p baseRef heap ts i).2.length
          = heap.length + ts.length
      ∧ (∀ j, j < heap.length →
          (C.create_chunks_alloc p baseRef heap ts i).2.getD j []
            = heap.getD j [])
      ∧ (∀ c ∈ (C.create_chunks_alloc p baseRef heap ts i).1,
          (C.create_chunks_alloc p baseRef heap ts i).2.getD c.metaRef []
            = heap.getD baseRef []) := by
  induction ts with
  | nil =>
      intro heap i _
      refine ⟨rfl, by simp [TextChunker.create_chunks_alloc], ?_, ?_⟩
      · intro j _; rfl
      · intro c hc
        simp [TextChunker.create_chunks_alloc] at hc
  | cons t ts ih =>
      intro heap i hbase
      have hlen1 : baseRef < (heap ++ [heap.getD baseRef []]).length := by
        simp only [List.length_append, List.length_cons, List.length_nil]
        omega
      obtain ⟨ih1, ih2, ih3, ih4⟩ := ih (heap ++ [heap.getD baseRef []]) (i + 1) hlen1
      have happlen : (heap ++ [heap.getD baseRef []]).length = heap.length + 1 := by
        simp
      have hpres : ∀ j, j < heap.length →
          (heap ++ [heap.getD baseRef []]).getD j [] = heap.getD j [] := by
        intro j hj
        conv_lhs => rw [List.getD_eq_getElem?_getD]
        rw [List.getElem?_append_left hj, ← List.getD_eq_getElem?_getD]
      have hnew : (heap ++ [heap.getD baseRef []]).getD heap.length []
          = heap.getD baseRef [] := by
        rw [List.getD_eq_getElem?_getD, List.getElem?_concat_length]
        rfl
      rw [happlen] at ih1 ih2 ih3
      refine ⟨?_, ?_, ?_, ?_⟩
      · simp only [TextChunker.create_chunks_alloc, TextChunker.create_chunk_alloc,
          List.map_cons, List.length_cons, List.range'_succ]
        exact congrArg (List.cons heap.length) ih1
      · simp only [TextChunker.create_chunks_alloc, TextChunker.create_chunk_alloc,
          List.length_cons]
        rw [ih2]
        omega
      · intro j hj
        simp only [TextChunker.create_chunks_alloc, TextChunker.create_chunk_alloc]
        rw [ih3 j (by omega)]
        exact hpres j hj
      · intro c hc
        simp only [TextChunker.create_chunks_alloc, TextChunker.create_chunk_alloc,
          List.mem_cons] at hc
        simp only [TextChunker.create_chunks_alloc, TextChunker.create_chunk_alloc]
        rcases hc with hc | hc
        · subst hc
          rw [ih3 heap.length (by omega)]
          exact hnew
        · rw [ih4 c hc]
          exact hpres baseRef hbase

/-! ### Claims -/

/-- C9: for empty or whitespace-only input (`not text.strip()`),
`chunk_text` returns the empty chunk sequence; being a total function it
raises no error. -/
theorem C9_empty_input (C : TextChunker) (text : String) (page : Nat)
    (meta : List (String × String)) (h : pyStrip text = "") :
    C.chunk_text text page meta = [] := by
  unfold TextChunker.chunk_text
  rw [if_pos h]

theorem C9_empty_input_witness : wcChunker.chunk_text "   " 1 [] = [] :=
  C9_empty_input wcChunker "   " 1 [] (by decide)

/-- C7: in every single `chunk_text` call the chunk_index values form the
contiguous ascending sequence 0, 1, …, n-1, across flush, overlap-seeding
and long-sentence-fallback paths. -/
theorem C7_index_contiguity (C : TextChunker) (text : String) (page : Nat)
    (meta : List (String × String)) :
    (C.chunk_text text page meta).map (fun c => c.chunk_index)
      = List.range (C.chunk_text text page meta).length := by
  rw [chunk_text_eq_recs, mkChunksFromRecs_map_index, mkChunksFromRecs_length,
    List.range_eq_range']

/-- C4: when a chunk is flushed on token-budget overflow, the new buffer is
seeded with exactly `_get_overlap` of the flushed sentences (then the
incoming sentence is appended): that seed is a suffix of the flushed
chunk's sentence sequence in original order, its accumulated token total is
the sum of its sentence counts and stays ≤ chunk_overlap, it may be empty,
and it is greedily maximal: the sentence immediately preceding the seed
(when one exists) would push the cumulative total over chunk_overlap. -/
theorem C4_overlap_suffix (C : TextChunker) (page : Nat)
    (meta : List (String × String)) (rest buf : List String) (sentence : String)
    (tok idx : Nat) (hst : ¬ C.count_tokens sentence > C.chunk_size)
    (hover : tok + C.count_tokens sentence > C.chunk_size) (hbuf : buf ≠ []) :
    (C.chunkLoop page meta (sentence :: rest) buf tok idx
        = C.create_chunk (joinSpace buf) idx page meta
            :: C.chunkLoop page meta rest ((C.get_overlap buf).1 ++ [sentence])
                ((C.get_overlap buf).2 + C.count_tokens sentence) (idx + 1))
    ∧ (∃ pre, buf = pre ++ (C.get_overlap buf).1)
    ∧ (C.get_overlap buf).2 = C.tokSum (C.get_overlap buf).1
    ∧ (C.get_overlap buf).2 ≤ C.chunk_overlap
    ∧ (∀ pre x, buf = pre ++ x :: (C.get_overlap buf).1 →
        C.tokSum (C.get_overlap buf).1 + C.count_tokens x > C.chunk_overlap) := by
  refine ⟨?_, get_overlap_suffix C buf, get_overlap_sum C buf,
    get_overlap_le C buf, ?_⟩
  · simp only [TextChunker.chunkLoop, hst, if_false]
    rw [if_pos ⟨hover, hbuf⟩]
  · intro pre x h
    have hmax := get_overlap_max C buf pre x h
    rw [get_overlap_sum] at hmax
    exact hmax

theorem C4_overlap_suffix_witness :
    (wcChunker.get_overlap ["A b c.", "D e f."]).2 ≤ wcChunker.chunk_overlap :=
  (C4_overlap_suffix wcChunker 1 [] [] ["A b c.", "D e f."]
    "G h i j k l m n o." 6 0 (by decide) (by decide) (by decide)).2.2.2.1

/-- C3: a sentence whose token count exceeds chunk_size triggers the
fallback: the non-empty buffer (if any) is flushed first with no overlap
carried into the fallback chunks, the sentence is split by
`_split_long_text` into consecutively indexed sub-chunks, and the loop
resumes with an empty buffer; the split is at word boundaries — the
sub-chunks' words concatenate exactly to the sentence's words (no word is
ever split) — and each sub-chunk's greedy token total is ≤ chunk_size
unless the sub-chunk is a single word. -/
theorem C3_long_sentence_fallback (C : TextChunker) (page : Nat)
    (meta : List (String × String)) (rest buf : List String) (s : String)
    (tok idx : Nat) (h : C.count_tokens s > C.chunk_size) :
    (C.chunkLoop page meta (s :: rest) buf tok idx
        = (if buf = [] then [] else [C.create_chunk (joinSpace buf) idx page meta])
          ++ mkSubChunks C page meta (C.split_long_text s)
              (if buf = [] then idx else idx + 1)
          ++ C.chunkLoop page meta rest [] 0
              ((if buf = [] then idx else idx + 1) + (C.split_long_text s).length))
    ∧ sentFlat (C.split_long_text s) = pyWords s
    ∧ (∀ piece ∈ C.split_long_text s,
        C.wSum (pyWords piece) ≤ C.chunk_size ∨ (pyWords piece).length = 1) := by
  refine ⟨?_, split_long_text_flat C s, split_long_text_bound C s⟩
  simp only [TextChunker.chunkLoop, h, if_true]

theorem C3_long_sentence_fallback_witness :
    sentFlat (c3Chunker.split_long_text "a b c d.") = pyWords "a b c d." :=
  (C3_long_sentence_fallback c3Chunker 1 [] [] [] "a b c d." 0 0 (by decide)).2.1

/-- C1 is false on the code: with word tokens, chunk_size 10, overlap 5,
the input below yields two non-fallback chunks with token counts 6 and 12:
the second chunk was seeded with an overlap suffix and then the next
sentence was appended without re-checking the budget, so its token_count
exceeds chunk_size. -/
theorem C1_token_bound_cex :
    (wcChunker.chunk_text "A b c. D e f. G h i j k l m n o." 1 []).map
        (fun c => c.token_count) = [6, 12]
    ∧ (wcChunker.recLoop
        (splitIntoSentences "A b c. D e f. G h i j k l m n o.") [] []).map
        (fun r => r.fallback) = [false, false]
    ∧ wcChunker.chunk_size = 10 :=
  ⟨by decide, by decide, rfl⟩

/-- C1 amended: a chunk whose buffer was seeded with an overlap suffix may
exceed chunk_size; what holds is the weaker bound chunk_size +
chunk_overlap: for every token counter subadditive across space joins,
every non-fallback chunk of `chunk_text` has
token_count ≤ chunk_size + chunk_overlap. -/
theorem C1_token_bound_amended (C : TextChunker)
    (Hsub : ∀ a b, C.count_tokens (a ++ " " ++ b)
      ≤ C.count_tokens a + C.count_tokens b)
    (text : String) (page : Nat) (meta : List (String × String)) :
    ∀ pr ∈ (C.recLoop (splitIntoSentences text) [] []).zip
        (C.chunk_text text page meta),
      pr.1.fallback = false →
        pr.2.token_count ≤ C.chunk_size + C.chunk_overlap := by
  intro pr hpr hfb
  obtain ⟨rec, chunk⟩ := pr
  have heq := chunk_text_eq_recs C text page meta
  rw [heq] at hpr
  have htok := mkChunksFromRecs_zip_token C page meta
    (C.recLoop (splitIntoSentences text) [] []) 0 (rec, chunk) hpr
  have hmem : rec ∈ C.recLoop (splitIntoSentences text) [] [] :=
    (List.of_mem_zip hpr).1
  have hbound := recLoop_bound C (splitIntoSentences text) [] []
    (by simp [tokSum_nil]) rec hmem hfb
  show chunk.token_count ≤ C.chunk_size + C.chunk_overlap
  rw [show chunk.token_count
      = C.count_tokens (joinSpace (rec.seed ++ rec.fresh)) from htok]
  calc C.count_tokens (joinSpace (rec.seed ++ rec.fresh))
      ≤ C.tokSum (rec.seed ++ rec.fresh) :=
        count_joinSpace_le C Hsub _ hbound.1
    _ ≤ C.chunk_size + C.chunk_overlap := hbound.2

theorem C1_token_bound_amended_witness :
    (wcChunker.create_chunk "Hi there." 0 1 []).token_count
      ≤ wcChunker.chunk_size + wcChunker.chunk_overlap :=
  C1_token_bound_amended wcChunker
    (fun a b => le_of_eq (wordCount_append_space_append a b))
    "Hi there." 1 []
    ((⟨[], ["Hi there."], false⟩ : ChunkRec),
      wcChunker.create_chunk "Hi there." 0 1 [])
    (by decide) rfl

/-- C6 is false as stated: with a 1-token budget the single sentence
"aa  bb" (double internal space) is fallback-split into the chunks "aa"
and "bb"; the splitter's sentence does not appear in the concatenation of
the chunk texts, whose joined character sequence is shorter than the
sentence itself. -/
theorem C6_coverage_cex :
    splitIntoSentences "aa  bb" = ["aa  bb"]
    ∧ (tinyChunker.chunk_text "aa  bb" 1 []).map (fun c => c.text) = ["aa", "bb"]
    ∧ ¬ ∃ l r, (joinSpace ((tinyChunker.chunk_text "aa  bb" 1 []).map
        (fun c => c.text))).data = l ++ ("aa  bb" : String).data ++ r := by
  refine ⟨by decide, by decide, ?_⟩
  rintro ⟨l, r, h⟩
  have hlen := congrArg List.length h
  rw [List.length_append, List.length_append] at hlen
  have h5 : List.length ((joinSpace ((tinyChunker.chunk_text "aa  bb" 1 []).map
      (fun c => c.text))).data) = 5 := by decide
  have h6 : List.length (("aa  bb" : String).data) = 6 := by decide
  omega

/-- C6 amended: each chunk text is the stripped space-join of its ghost
sentence record, and concatenating the fresh parts of all chunks (the
chunk content minus its overlap seed) reproduces the sentence stream word
for word: no sentence is dropped, duplicated or reordered, with
fallback-split sentences reproduced up to whitespace normalization (their
word sequence is preserved exactly). -/
theorem C6_coverage_amended (C : TextChunker) (text : String) (page : Nat)
    (meta : List (String × String)) :
    ((C.chunk_text text page meta).map (fun c => c.text)
        = (C.recLoop (splitIntoSentences text) [] []).map
            (fun r => pyStrip (joinSpace (r.seed ++ r.fresh))))
    ∧ sentFlat (((C.recLoop (splitIntoSentences text) [] []).map
          (fun r => r.fresh)).flatten)
        = sentFlat (splitIntoSentences text) := by
  constructor
  · rw [chunk_text_eq_recs, mkChunksFromRecs_map_text]
  · rw [recLoop_flat]
    rfl

/-- C2 is false on the code: `__init__` performs no validation, so a
malformed configuration (chunk_size = 0 with chunk_overlap = 100 ≥
chunk_size) is accepted and stored unchanged instead of failing fast. -/
theorem C2_config_validation_cex :
    (TextChunker.init [("cl100k_base", wordCount)] 0 100 "cl100k_base").map
        (fun c => (c.chunk_size, c.chunk_overlap)) = some (0, 100) := rfl

/-- C2 amended: construction validates nothing about
chunk_size/chunk_overlap: for every pair of values it succeeds exactly when
the encoding name is known, storing both values unchanged (so nothing is
clamped, but nothing is rejected either); the only construction-time
failure is an unknown encoding, and `chunk_text` is a total function for
every configuration. -/
theorem C2_config_validation_amended
    (encodings : List (String × (String → Nat))) (chunk_size chunk_overlap : Int)
    (name : String) :
    (TextChunker.init encodings chunk_size chunk_overlap name).map
        (fun c => (c.chunk_size, c.chunk_overlap))
      = (encodings.lookup name).map (fun _ => (chunk_size, chunk_overlap)) := by
  unfold TextChunker.init
  cases encodings.lookup name <;> rfl

/-- ID/metadata shape of the `_store_chunks` loop. -/
theorem storeChunksAux_spec {α : Type} (document_id filename category : String)
    (uploaded_by : Option String) (now : String) (l : List (TextChunk × α)) :
    ∀ i, ((storeChunksAux document_id filename category uploaded_by now l i).1
        = (List.range' i l.length).map (fun j => document_id ++ "_" ++ toString j))
      ∧ ((storeChunksAux document_id filename category uploaded_by now l i).2.2.map
            (fun md => md.chunk_index)
          = l.map (fun pr => pr.1.chunk_index)) := by
  induction l with
  | nil => intro i; exact ⟨rfl, rfl⟩
  | cons pr rest ih =>
      intro i
      obtain ⟨c, e⟩ := pr
      obtain ⟨ih1, ih2⟩ := ih (i + 1)
      constructor
      · simp only [storeChunksAux, List.length_cons, List.range'_succ, List.map_cons]
        exact congrArg _ ih1
      · simp only [storeChunksAux, List.map_cons]
        exact congrArg _ ih2

/-- C5 is false on the code: `_store_chunks` keys each chunk by its
position in the document-wide enumeration, not by the chunk's own
chunk_index attribute (which restarts at 0 on every page): for a
two-page document the second stored chunk has chunk_index 0 but id
"doc_1". -/
theorem C5_chunk_id_cex :
    ((IngestionPipeline.store_chunks "doc" "f.pdf" "academic"
        (wcChunker.chunk_pages [⟨1, "Hello world.", []⟩, ⟨2, "Bye now.", []⟩]
          "f.pdf" "academic")
        [0, 1] none "now").ids = ["doc_0", "doc_1"])
    ∧ ((wcChunker.chunk_pages [⟨1, "Hello world.", []⟩, ⟨2, "Bye now.", []⟩]
        "f.pdf" "academic").map (fun c => c.chunk_index) = [0, 0])
    ∧ ("doc_1" : String) ≠ "doc" ++ "_" ++ toString (0 : Nat) :=
  ⟨by decide, by decide, by decide⟩

/-- C5 amended: the stored identifiers are {document_id}_{i} where i is the
chunk's zero-based position in the document-wide chunk list (truncated by
zip with the embeddings); the per-page chunk_index attribute is persisted
in the metadata record, not in the identifier. -/
theorem C5_chunk_id_amended {α : Type} (document_id filename category : String)
    (chunks : List TextChunk) (embeddings : List α) (uploaded_by : Option String)
    (now : String) :
    ((IngestionPipeline.store_chunks document_id filename category chunks
        embeddings uploaded_by now).ids
      = (List.range (chunks.zip embeddings).length).map
          (fun i => document_id ++ "_" ++ toString i))
    ∧ ((IngestionPipeline.store_chunks document_id filename category chunks
        embeddings uploaded_by now).metadatas.map (fun md => md.chunk_index)
      = (chunks.zip embeddings).map (fun pr => pr.1.chunk_index)) := by
  obtain ⟨h1, h2⟩ := storeChunksAux_spec document_id filename category uploaded_by
    now (chunks.zip embeddings) 0
  refine ⟨?_, h2⟩
  rw [List.range_eq_range']
  exact h1

/-- C10's "only when" clause is false: the chunk built from " a" with the
word counter has token_count equal to the token count of its stored text
even though the assembled text has leading whitespace (stripping need not
change a token count). -/
theorem C10_strip_count_cex :
    ((wcChunker.create_chunk " a" 0 1 []).token_count
        = wcChunker.count_tokens ((wcChunker.create_chunk " a" 0 1 []).text))
    ∧ pyStrip " a" ≠ " a" :=
  ⟨by decide, by decide⟩

/-- C10 amended: `_create_chunk` stores the stripped assembled text while
token_count is computed on the unstripped assembled text; whenever the
assembled text is already stripped, token_count equals the token count of
the stored text (the converse does not hold in general). -/
theorem C10_strip_count_amended (C : TextChunker) (text : String)
    (chunk_index page : Nat) (meta : List (String × String)) :
    ((C.create_chunk text chunk_index page meta).text = pyStrip text)
    ∧ ((C.create_chunk text chunk_index page meta).token_count
        = C.count_tokens text)
    ∧ (pyStrip text = text →
        (C.create_chunk text chunk_index page meta).token_count
          = C.count_tokens ((C.create_chunk text chunk_index page meta).text)) := by
  refine ⟨rfl, rfl, ?_⟩
  intro h
  show C.count_tokens text = C.count_tokens (pyStrip text)
  rw [h]

theorem C10_strip_count_amended_witness :
    (wcChunker.create_chunk "a" 0 1 []).token_count
      = wcChunker.count_tokens ((wcChunker.create_chunk "a" 0 1 []).text) :=
  (C10_strip_count_amended wcChunker "a" 0 1 []).2.2 (by decide)

/-- C8: every `_create_chunk` call copies the base metadata mapping into a
freshly allocated cell: over a run of calls sharing one base reference,
the chunks' metadata references are pairwise distinct and distinct from
the base reference, each chunk's cell holds the base mapping's value, and
overwriting one chunk's cell leaves every other chunk's metadata lookup
unchanged — later mutation of one chunk's metadata cannot affect
another's. -/
theorem C8_metadata_copy (C : TextChunker) (p baseRef : Nat) (heap : MetaHeap)
    (ts : List String) (hbase : baseRef < heap.length) :
    (((C.create_chunks_alloc p baseRef heap ts 0).1.map
        (fun c => c.metaRef)).Nodup)
    ∧ (∀ c ∈ (C.create_chunks_alloc p baseRef heap ts 0).1, c.metaRef ≠ baseRef)
    ∧ (∀ c ∈ (C.create_chunks_alloc p baseRef heap ts 0).1,
        (C.create_chunks_alloc p baseRef heap ts 0).2.getD c.metaRef []
          = heap.getD baseRef [])
    ∧ (∀ c1 ∈ (C.create_chunks_alloc p baseRef heap ts 0).1,
        ∀ c2 ∈ (C.create_chunks_alloc p baseRef heap ts 0).1,
        c1.metaRef ≠ c2.metaRef → ∀ mNew,
          ((C.create_chunks_alloc p baseRef heap ts 0).2.set c1.metaRef
              mNew).getD c2.metaRef []
            = (C.create_chunks_alloc p baseRef heap ts 0).2.getD c2.metaRef []) := by
  obtain ⟨h1, h2, h3, h4⟩ := create_chunks_alloc_spec C p baseRef ts heap 0 hbase
  refine ⟨?_, ?_, h4, ?_⟩
  · rw [h1]
    exact List.nodup_range' _ _ _ (by norm_num)
  · intro c hc
    have hm : c.metaRef ∈ (C.create_chunks_alloc p baseRef heap ts 0).1.map
        (fun c => c.metaRef) := List.mem_map_of_mem _ hc
    rw [h1] at hm
    have := List.mem_range'_1.mp hm
    omega
  · intro c1 hc1 c2 hc2 hne mNew
    rw [List.getD_eq_getElem?_getD, List.getD_eq_getElem?_getD,
      List.getElem?_set_ne hne]

theorem C8_metadata_copy_witness :
    ((wcChunker.create_chunks_alloc 1 0 [[("k", "v")]] ["a", "b"] 0).1.map
        (fun c => c.metaRef)).Nodup :=
  (C8_metadata_copy wcChunker 1 0 [[("k", "v")]] ["a", "b"] (by decide)).1
